import Mathlib

/-!
Shallow embedding of the RC5 cipher implementation in `src/src/lib.rs`
(repository `plumenator/rc5_test`).

Machine words of bit width `w` are modelled as natural numbers below `2 ^ w`;
every wrapping operation carries an explicit `% 2 ^ w`.  The width `w` is a
parameter throughout, mirroring the Rust code's genericity over the `Word`
trait (`w = W::zero().count_zeros()`); the `FromLeBytes`/`ToLeBytes` byte
codec, implemented in the source only for `u32`, is modelled generically as
little-endian packing of `w / 8` bytes, exactly as the `u32` instance does
and as the spec prescribes for the other widths.  The `assert!` failures of
the source become `Except` errors.
-/

namespace RC5

/-- Error taxonomy: `gen_key_table`'s assert (key length) and `compute`'s
assert (input alignment), from `lib.rs` lines 96 and 137. -/
inductive Rc5Error where
  | invalidKeyLength
  | invalidInputLength
deriving DecidableEq, Repr

/-- Wrapping addition modulo `2 ^ w` (`WrappingAdd::wrapping_add`). -/
def wadd (w x y : Nat) : Nat := (x + y) % 2 ^ w

/-- Wrapping subtraction modulo `2 ^ w` (`WrappingSub::wrapping_sub`). -/
def wsub (w x y : Nat) : Nat := (x + (2 ^ w - y % 2 ^ w)) % 2 ^ w

/-- Rotate a `w`-bit word left by `n` bits (`PrimInt::rotate_left`); the
amount is reduced modulo `w`, as the Rust intrinsic does. -/
def rotl (w x n : Nat) : Nat :=
  (x % 2 ^ w * 2 ^ (n % w)) % 2 ^ w + x % 2 ^ w / 2 ^ (w - n % w)

/-- Rotate a `w`-bit word right by `n` bits (`PrimInt::rotate_right`),
expressed as the complementary left rotation. -/
def rotr (w x n : Nat) : Nat := rotl w x (w - n % w)

/-- Magic constant `P(w)` from the `MagicConstants` impls (`lib.rs` 13-38);
the source provides instances only for the widths 16, 32 and 64. -/
def P : Nat → Nat
  | 16 => 0xb7e1
  | 32 => 0xb7e15163
  | 64 => 0xb7e151628aed2a6b
  | _ => 0

/-- Magic constant `Q(w)` from the `MagicConstants` impls (`lib.rs` 13-38). -/
def Q : Nat → Nat
  | 16 => 0x9e37
  | 32 => 0x9e3779b9
  | 64 => 0x9e3779b97f4a7c15
  | _ => 0

/-- Seed values of the `S` array: `s[0] = P`, `s[i] = s[i-1] + Q` wrapping
(`lib.rs` 109-112). -/
def sSeed (w : Nat) : Nat → Nat
  | 0 => P w
  | n + 1 => wadd w (sSeed w n) (Q w)

/-- One step of the key packing loop `l[i/u] = (l[i/u] << 8) + key[i]`
(`lib.rs` 103-108): `unsigned_shl 8` discards the high bits (`% 2 ^ w`),
then the byte is added wrapping. -/
def packStep (w u : Nat) (key : List Nat) (i : Nat) (l : List Nat) : List Nat :=
  l.set (i / u) (wadd w (l.getD (i / u) 0 * 256 % 2 ^ w) (key.getD i 0))

/-- The packing loop `for i in (0..key.len()).rev()`: index `n - 1` down
to `0`; invoked with `n = key.length`. -/
def packL (w u : Nat) (key : List Nat) : Nat → List Nat → List Nat
  | 0, l => l
  | n + 1, l => packL w u key n (packStep w u key n l)

/-- State of the mixing loop of `gen_key_table` (`lib.rs` 113-126). -/
structure MixState where
  s : List Nat
  l : List Nat
  a : Nat
  b : Nat
  i : Nat
  j : Nat
deriving Repr

/-- One iteration of the mixing loop (`lib.rs` 114-126):
`s[i] = (s[i] + a + b).rotate_left(3 % w)`, `a = s[i]`,
`l[j] = (l[j] + a + b).rotate_left((a + b) wrapping % w)`, `b = l[j]`,
`i = (i+1) % t`, `j = (j+1) % c`. -/
def mixStep (w t c : Nat) (st : MixState) : MixState :=
  let si := rotl w (wadd w (wadd w (st.s.getD st.i 0) st.a) st.b) (3 % w)
  let lj := rotl w (wadd w (wadd w (st.l.getD st.j 0) si) st.b) (wadd w si st.b % w)
  ⟨st.s.set st.i si, st.l.set st.j lj, si, lj, (st.i + 1) % t, (st.j + 1) % c⟩

/-- The successful body of `gen_key_table` (`lib.rs` 97-127): sizes
`t = 2·rounds + 2`, `u = w/8`, `c = max 1 ⌈key.len()·8 / w⌉`; pack `L`,
seed `S`, run the mixing loop `3 · max t c` times, return `S`. -/
def genKeyTableCore (w : Nat) (key : List Nat) (rounds : Nat) : List Nat :=
  let t := 2 * rounds + 2
  let u := w / 8
  let c := max 1 ((key.length * 8 + (w - 1)) / w)
  let l0 := packL w u key key.length (List.replicate c 0)
  let s0 := (List.range t).map (sSeed w)
  ((mixStep w t c)^[3 * max t c] ⟨s0, l0, 0, 0, 0, 0⟩).s

/-- `gen_key_table` (`lib.rs` 92-128); the `assert!(key.len() <= 255)` is
modelled as an `Except` error. -/
def gen_key_table (w : Nat) (key : List Nat) (rounds : Nat) : Except Rc5Error (List Nat) :=
  if key.length ≤ 255 then .ok (genKeyTableCore w key rounds)
  else .error .invalidKeyLength

/-- One round `i` of `encode_block` (`lib.rs` 167-176):
`a = (a ^ b).rotate_left(b % w) + kt[2i]` then, with the updated `a`,
`b = (b ^ a).rotate_left(a % w) + kt[2i+1]`, additions wrapping. -/
def encRound (w : Nat) (kt : List Nat) (i : Nat) (ab : Nat × Nat) : Nat × Nat :=
  let a := wadd w (rotl w (ab.1 ^^^ ab.2) (ab.2 % w)) (kt.getD (2 * i) 0)
  let b := wadd w (rotl w (ab.2 ^^^ a) (a % w)) (kt.getD (2 * i + 1) 0)
  (a, b)

/-- Rounds `1, …, n` of `encode_block`, applied in ascending order. -/
def encRounds (w : Nat) (kt : List Nat) : Nat → Nat × Nat → Nat × Nat
  | 0, ab => ab
  | n + 1, ab => encRound w kt (n + 1) (encRounds w kt n ab)

/-- `encode_block` (`lib.rs` 158-178): `a = pt.0 + kt[0]`, `b = pt.1 + kt[1]`
wrapping, then `rounds = kt.len()/2 - 1` mixing rounds. -/
def encode_block (w : Nat) (pt : Nat × Nat) (kt : List Nat) : Nat × Nat :=
  let rounds := kt.length / 2 - 1
  encRounds w kt rounds (wadd w pt.1 (kt.getD 0 0), wadd w pt.2 (kt.getD 1 0))

/-- One round `i` of `decode_block` (`lib.rs` 199-206):
`b = (b - kt[2i+1]).rotate_right(a % w) ^ a` then, with the updated `b`,
`a = (a - kt[2i]).rotate_right(b % w) ^ b`, subtractions wrapping. -/
def decRound (w : Nat) (kt : List Nat) (i : Nat) (ab : Nat × Nat) : Nat × Nat :=
  let b := rotr w (wsub w ab.2 (kt.getD (2 * i + 1) 0)) (ab.1 % w) ^^^ ab.1
  let a := rotr w (wsub w ab.1 (kt.getD (2 * i) 0)) (b % w) ^^^ b
  (a, b)

/-- Rounds `n, …, 1` of `decode_block`, applied in descending order
(`for i in (1..=rounds).rev()`). -/
def decRounds (w : Nat) (kt : List Nat) : Nat → Nat × Nat → Nat × Nat
  | 0, ab => ab
  | n + 1, ab => decRounds w kt n (decRound w kt (n + 1) ab)

/-- `decode_block` (`lib.rs` 191-211): `rounds = kt.len()/2 - 1` inverse
rounds in descending order, then subtract `kt[0]`, `kt[1]` wrapping. -/
def decode_block (w : Nat) (ct : Nat × Nat) (kt : List Nat) : Nat × Nat :=
  let rounds := kt.length / 2 - 1
  let ab := decRounds w kt rounds ct
  (wsub w ab.1 (kt.getD 0 0), wsub w ab.2 (kt.getD 1 0))

/-- `u32::from_le_bytes` generalized: little-endian value of a byte list. -/
def fromLe (bs : List Nat) : Nat := bs.foldr (fun b acc => b + 256 * acc) 0

/-- `u32::to_le_bytes` generalized: the `u` little-endian bytes of `x`. -/
def toLe : Nat → Nat → List Nat
  | 0, _ => []
  | u + 1, x => x % 256 :: toLe u (x / 256)

/-- The block loop of `compute` (`lib.rs` 142-155): take the next chunk of
`bb = 2·u` bytes, split it in half, decode both halves little-endian, apply
the block function, append the little-endian bytes of both results;
`n` is the number of chunks (`chunks_exact`). -/
def computeBlocks (bb : Nat) (kt : List Nat) (f : Nat × Nat → List Nat → Nat × Nat) :
    Nat → List Nat → List Nat
  | 0, _ => []
  | n + 1, input =>
    let chunk := input.take bb
    let o := f (fromLe (chunk.take (bb / 2)), fromLe (chunk.drop (bb / 2))) kt
    toLe (bb / 2) o.1 ++ toLe (bb / 2) o.2 ++ computeBlocks bb kt f n (input.drop bb)

/-- `compute` (`lib.rs` 132-156): `block_bytes = w / 4`; the alignment
`assert!` is modelled as an `Except` error. -/
def compute (w : Nat) (input : List Nat) (kt : List Nat)
    (f : Nat × Nat → List Nat → Nat × Nat) : Except Rc5Error (List Nat) :=
  if input.length % (w / 4) = 0 then
    .ok (computeBlocks (w / 4) kt f (input.length / (w / 4)) input)
  else .error .invalidInputLength

/-- `compute(plaintext, gen_key_table(key, rounds), encode_block)` with the
round count as an explicit parameter; the source's `encode` (`lib.rs`
184-189) is this at `rounds = 12`. -/
def encodeWith (w : Nat) (key : List Nat) (rounds : Nat) (pt : List Nat) :
    Except Rc5Error (List Nat) :=
  (gen_key_table w key rounds).bind fun kt => compute w pt kt (encode_block w)

/-- `encode` (`lib.rs` 184-189): round count hardcoded to 12. -/
def encode (w : Nat) (key pt : List Nat) : Except Rc5Error (List Nat) :=
  encodeWith w key 12 pt

/-- `compute(ciphertext, gen_key_table(key, rounds), decode_block)` with the
round count as an explicit parameter; the source's `decode` (`lib.rs`
217-222) is this at `rounds = 12`. -/
def decodeWith (w : Nat) (key : List Nat) (rounds : Nat) (ct : List Nat) :
    Except Rc5Error (List Nat) :=
  (gen_key_table w key rounds).bind fun kt => compute w ct kt (decode_block w)

/-- `decode` (`lib.rs` 217-222): round count hardcoded to 12. -/
def decode (w : Nat) (key ct : List Nat) : Except Rc5Error (List Nat) :=
  decodeWith w key 12 ct

/-! ### Definitions transcribed from the specification's wording

The following `spec…` definitions follow the spec's §4.1 and §4.2 algorithm
descriptions word for word; they exist to be compared with the embedding of
the source above. -/

/-- Spec §4.1 step 2: `L[i/u] = (L[i/u] << 8) + key[i]`, the slot wrapping
modulo `2 ^ w`. -/
def specPackStep (w u : Nat) (key : List Nat) (i : Nat) (l : List Nat) : List Nat :=
  l.set (i / u) ((l.getD (i / u) 0 * 256 + key.getD i 0) % 2 ^ w)

/-- Spec §4.1 step 2: scan key bytes from the last index to the first. -/
def specPackL (w u : Nat) (key : List Nat) : Nat → List Nat → List Nat
  | 0, l => l
  | n + 1, l => specPackL w u key n (specPackStep w u key n l)

/-- Spec §4.1 step 4: `S[i] = rotate_left(S[i] + a + b, 3)`, `a = S[i]`,
`L[j] = rotate_left(L[j] + a + b, (a+b) mod w)`, `b = L[j]`,
`i = (i+1) mod t`, `j = (j+1) mod c`. -/
def specMixStep (w t c : Nat) (st : MixState) : MixState :=
  let si := rotl w ((st.s.getD st.i 0 + st.a + st.b) % 2 ^ w) 3
  let lj := rotl w ((st.l.getD st.j 0 + si + st.b) % 2 ^ w) ((si + st.b) % w)
  ⟨st.s.set st.i si, st.l.set st.j lj, si, lj, (st.i + 1) % t, (st.j + 1) % c⟩

/-- Spec §4.1: the full KeySchedule algorithm, steps 1-5: sizes
`t = 2·rounds + 2`, `u = w/8`, `c = max(1, ⌈key.len·8 / w⌉)`; pack `L`
last byte first; seed `S` from `P` and `Q`; run the mixing pass exactly
`3 · max(t, c)` times; return `S` and discard `L`. -/
def specKeySchedule (w : Nat) (key : List Nat) (rounds : Nat) : List Nat :=
  let t := 2 * rounds + 2
  let u := w / 8
  let c := max 1 ((key.length * 8 + (w - 1)) / w)
  let l0 := specPackL w u key key.length (List.replicate c 0)
  let s0 := (List.range t).map (sSeed w)
  ((specMixStep w t c)^[3 * max t c] ⟨s0, l0, 0, 0, 0, 0⟩).s

/-- Spec §4.2, one round of the encode algorithm:
`A = rotate_left(A XOR B, B mod w) + table[2i]` then, with the updated `A`,
`B = rotate_left(B XOR A, A mod w) + table[2i+1]`, additions mod `2 ^ w`. -/
def specEncRound (w : Nat) (table : List Nat) (i : Nat) (ab : Nat × Nat) : Nat × Nat :=
  let a := (rotl w (ab.1 ^^^ ab.2) (ab.2 % w) + table.getD (2 * i) 0) % 2 ^ w
  let b := (rotl w (ab.2 ^^^ a) (a % w) + table.getD (2 * i + 1) 0) % 2 ^ w
  (a, b)

/-- Spec §4.2: rounds `1, …, n` of the encode algorithm in ascending order. -/
def specEncRounds (w : Nat) (table : List Nat) : Nat → Nat × Nat → Nat × Nat
  | 0, ab => ab
  | n + 1, ab => specEncRound w table (n + 1) (specEncRounds w table n ab)

/-- Spec §4.2 encode contract: `A = A + table[0]`, `B = B + table[1]`
(mod `2 ^ w`), then `rounds` rounds for `i = 1..=rounds`. -/
def specEncodeBlock (w rounds : Nat) (pt : Nat × Nat) (table : List Nat) : Nat × Nat :=
  specEncRounds w table rounds
    ((pt.1 + table.getD 0 0) % 2 ^ w, (pt.2 + table.getD 1 0) % 2 ^ w)

/-! ### Arithmetic facts about the word operations -/

theorem mul_pow_mod (d s x : Nat) :
    (x * 2 ^ s) % 2 ^ (d + s) = x % 2 ^ d * 2 ^ s := by
  have key : x * 2 ^ s = 2 ^ (d + s) * (x / 2 ^ d) + x % 2 ^ d * 2 ^ s := by
    calc x * 2 ^ s
        = (2 ^ d * (x / 2 ^ d) + x % 2 ^ d) * 2 ^ s := by rw [Nat.div_add_mod]
      _ = 2 ^ (d + s) * (x / 2 ^ d) + x % 2 ^ d * 2 ^ s := by rw [pow_add]; ring
  rw [key, Nat.mul_add_mod]
  apply Nat.mod_eq_of_lt
  calc x % 2 ^ d * 2 ^ s < 2 ^ d * 2 ^ s :=
        (Nat.mul_lt_mul_right (Nat.two_pow_pos s)).mpr (Nat.mod_lt _ (Nat.two_pow_pos _))
    _ = 2 ^ (d + s) := by rw [pow_add]

theorem wadd_lt (w x y : Nat) : wadd w x y < 2 ^ w := Nat.mod_lt _ (Nat.two_pow_pos w)

theorem wsub_lt (w x y : Nat) : wsub w x y < 2 ^ w := Nat.mod_lt _ (Nat.two_pow_pos w)

/-- Wrapping subtraction undoes wrapping addition of the same word. -/
theorem wsub_wadd (w a k : Nat) (ha : a < 2 ^ w) : wsub w (wadd w a k) k = a := by
  unfold wadd wsub
  rw [Nat.mod_add_mod]
  have h1 : 2 ^ w * (k / 2 ^ w) + k % 2 ^ w = k := Nat.div_add_mod k (2 ^ w)
  have h2 : 2 ^ w * (k / 2 ^ w + 1) = 2 ^ w * (k / 2 ^ w) + 2 ^ w := by ring
  have hk : k % 2 ^ w < 2 ^ w := Nat.mod_lt _ (Nat.two_pow_pos w)
  have h3 : a + k + (2 ^ w - k % 2 ^ w) = a + 2 ^ w * (k / 2 ^ w + 1) := by omega
  rw [h3, Nat.add_mul_mod_self_left, Nat.mod_eq_of_lt ha]

theorem rotl_eq (w n x : Nat) (hw : 0 < w) (hx : x < 2 ^ w) :
    rotl w x n = x % 2 ^ (w - n % w) * 2 ^ (n % w) + x / 2 ^ (w - n % w) := by
  have hs : n % w < w := Nat.mod_lt n hw
  have hd : w - n % w + n % w = w := by omega
  unfold rotl
  rw [Nat.mod_eq_of_lt hx]
  have h1 : x * 2 ^ (n % w) % 2 ^ (w - n % w + n % w)
      = x % 2 ^ (w - n % w) * 2 ^ (n % w) := mul_pow_mod _ _ _
  rw [hd] at h1
  rw [h1]

theorem rotl_lt (w n x : Nat) (hw : 0 < w) : rotl w x n < 2 ^ w := by
  have hs : n % w < w := Nat.mod_lt n hw
  have hd : w - n % w + n % w = w := by omega
  have hxm : x % 2 ^ w < 2 ^ w := Nat.mod_lt _ (Nat.two_pow_pos w)
  have h4 : 2 ^ (w - n % w) * 2 ^ (n % w) = 2 ^ w := by rw [← pow_add, hd]
  unfold rotl
  have h1 : x % 2 ^ w * 2 ^ (n % w) % 2 ^ (w - n % w + n % w)
      = x % 2 ^ w % 2 ^ (w - n % w) * 2 ^ (n % w) := mul_pow_mod _ _ _
  rw [hd] at h1
  rw [h1]
  have h2 : x % 2 ^ w % 2 ^ (w - n % w) ≤ 2 ^ (w - n % w) - 1 := by
    have := Nat.mod_lt (x % 2 ^ w) (Nat.two_pow_pos (w - n % w))
    omega
  have h3 : x % 2 ^ w / 2 ^ (w - n % w) < 2 ^ (n % w) :=
    Nat.div_lt_of_lt_mul (by rw [h4]; exact hxm)
  calc x % 2 ^ w % 2 ^ (w - n % w) * 2 ^ (n % w) + x % 2 ^ w / 2 ^ (w - n % w)
      ≤ (2 ^ (w - n % w) - 1) * 2 ^ (n % w) + x % 2 ^ w / 2 ^ (w - n % w) :=
        Nat.add_le_add_right (Nat.mul_le_mul_right _ h2) _
    _ < (2 ^ (w - n % w) - 1) * 2 ^ (n % w) + 2 ^ (n % w) := Nat.add_lt_add_left h3 _
    _ = 2 ^ (w - n % w) * 2 ^ (n % w) := by
        have h5 : 2 ^ (n % w) ≤ 2 ^ (w - n % w) * 2 ^ (n % w) :=
          Nat.le_mul_of_pos_left _ (Nat.two_pow_pos _)
        rw [Nat.sub_mul, one_mul]
        omega
    _ = 2 ^ w := h4

/-- A rotation whose reduced amount is zero is the identity on words. -/
theorem rotl_amount_zero (w n x : Nat) (hx : x < 2 ^ w) (hn : n % w = 0) :
    rotl w x n = x := by
  simp [rotl, hn, Nat.mod_eq_of_lt hx, Nat.div_eq_of_lt hx]

/-- Right rotation by `n` undoes left rotation by `n` on words. -/
theorem rotr_rotl (w n x : Nat) (hw : 0 < w) (hx : x < 2 ^ w) :
    rotr w (rotl w x n) n = x := by
  rcases Nat.eq_zero_or_pos (n % w) with h0 | hpos
  · rw [rotl_amount_zero w n x hx h0]
    unfold rotr
    rw [h0, Nat.sub_zero]
    exact rotl_amount_zero w w x hx (Nat.mod_self w)
  · have hs : n % w < w := Nat.mod_lt n hw
    have hdlt : w - n % w < w := by omega
    have hd : w - n % w + n % w = w := by omega
    have hy : rotl w x n < 2 ^ w := rotl_lt w n x hw
    unfold rotr
    rw [rotl_eq w (w - n % w) (rotl w x n) hw hy, Nat.mod_eq_of_lt hdlt]
    have hw2 : w - (w - n % w) = n % w := by omega
    rw [hw2]
    rw [rotl_eq w n x hw hx]
    have hhi : x / 2 ^ (w - n % w) < 2 ^ (n % w) :=
      Nat.div_lt_of_lt_mul (by rw [← pow_add, hd]; exact hx)
    have hmod : (x % 2 ^ (w - n % w) * 2 ^ (n % w) + x / 2 ^ (w - n % w)) % 2 ^ (n % w)
        = x / 2 ^ (w - n % w) := by
      rw [mul_comm, Nat.mul_add_mod, Nat.mod_eq_of_lt hhi]
    have hdiv : (x % 2 ^ (w - n % w) * 2 ^ (n % w) + x / 2 ^ (w - n % w)) / 2 ^ (n % w)
        = x % 2 ^ (w - n % w) := by
      rw [mul_comm, Nat.mul_add_div (Nat.two_pow_pos _), Nat.div_eq_of_lt hhi, Nat.add_zero]
    rw [hmod, hdiv]
    calc x / 2 ^ (w - n % w) * 2 ^ (w - n % w) + x % 2 ^ (w - n % w)
        = 2 ^ (w - n % w) * (x / 2 ^ (w - n % w)) + x % 2 ^ (w - n % w) := by ring
      _ = x := Nat.div_add_mod x (2 ^ (w - n % w))

/-- Any bitwise operation of two `w`-bit words fits in `w` bits. -/
theorem xor_lt (n x y : Nat) (hx : x < 2 ^ n) (hy : y < 2 ^ n) : x ^^^ y < 2 ^ n := by
  have h : Nat.bitwise bne x y < 2 ^ n := Nat.bitwise_lt hx hy
  simpa [HXor.hXor, Nat.xor] using h

/-! ### Block transform roundtrip -/

theorem encRound_lt (w : Nat) (kt : List Nat) (i : Nat) (ab : Nat × Nat) :
    (encRound w kt i ab).1 < 2 ^ w ∧ (encRound w kt i ab).2 < 2 ^ w :=
  ⟨wadd_lt w _ _, wadd_lt w _ _⟩

/-- A decode round undoes the encode round with the same index. -/
theorem decRound_encRound (w : Nat) (kt : List Nat) (i : Nat) (ab : Nat × Nat)
    (hw : 0 < w) (ha : ab.1 < 2 ^ w) (hb : ab.2 < 2 ^ w) :
    decRound w kt i (encRound w kt i ab) = ab := by
  obtain ⟨a, b⟩ := ab
  simp only at ha hb
  unfold encRound decRound
  simp only
  set A := wadd w (rotl w (a ^^^ b) (b % w)) (kt.getD (2 * i) 0) with hA
  have hAlt : A < 2 ^ w := hA ▸ wadd_lt w _ _
  have h1 : rotr w (wsub w (wadd w (rotl w (b ^^^ A) (A % w)) (kt.getD (2 * i + 1) 0))
      (kt.getD (2 * i + 1) 0)) (A % w) ^^^ A = b := by
    rw [wsub_wadd w _ _ (rotl_lt w _ _ hw),
      rotr_rotl w _ _ hw (xor_lt w b A hb hAlt), Nat.xor_cancel_right]
  rw [h1]
  have h2 : rotr w (wsub w A (kt.getD (2 * i) 0)) (b % w) ^^^ b = a := by
    rw [hA, wsub_wadd w _ _ (rotl_lt w _ _ hw),
      rotr_rotl w _ _ hw (xor_lt w a b ha hb), Nat.xor_cancel_right]
  rw [h2]

/-- The descending decode rounds undo the ascending encode rounds. -/
theorem decRounds_encRounds (w : Nat) (kt : List Nat) (n : Nat) (ab : Nat × Nat)
    (hw : 0 < w) (ha : ab.1 < 2 ^ w) (hb : ab.2 < 2 ^ w) :
    decRounds w kt n (encRounds w kt n ab) = ab := by
  induction n with
  | zero => rfl
  | succ n ih =>
    have h1 := (encRound_lt w kt (n + 1) (encRounds w kt n ab)).1
    have h2 := (encRound_lt w kt (n + 1) (encRounds w kt n ab)).2
    calc decRounds w kt (n + 1) (encRounds w kt (n + 1) ab)
        = decRounds w kt n
            (decRound w kt (n + 1) (encRound w kt (n + 1) (encRounds w kt n ab))) := rfl
      _ = decRounds w kt n (encRounds w kt n ab) := by
          have hinv : (encRounds w kt n ab).1 < 2 ^ w ∧ (encRounds w kt n ab).2 < 2 ^ w := by
            cases n with
            | zero => exact ⟨ha, hb⟩
            | succ m => exact encRound_lt w kt (m + 1) (encRounds w kt m ab)
          rw [decRound_encRound w kt (n + 1) (encRounds w kt n ab) hw hinv.1 hinv.2]
      _ = ab := ih

/-- `decode_block` inverts `encode_block` for any key table, bit-exactly. -/
theorem decode_block_encode_block (w : Nat) (pt : Nat × Nat) (kt : List Nat)
    (hw : 0 < w) (h1 : pt.1 < 2 ^ w) (h2 : pt.2 < 2 ^ w) :
    decode_block w (encode_block w pt kt) kt = pt := by
  unfold encode_block decode_block
  simp only
  rw [decRounds_encRounds w kt (kt.length / 2 - 1)
    (wadd w pt.1 (kt.getD 0 0), wadd w pt.2 (kt.getD 1 0)) hw (wadd_lt w _ _) (wadd_lt w _ _)]
  rw [wsub_wadd w pt.1 _ h1, wsub_wadd w pt.2 _ h2]

/-- C1: for every pair of `w`-bit words `p`, every round count `r ≥ 1` and
every key table `t` of length `2·r + 2`,
`decode_block (encode_block p t) t = p` bit-exactly, including when the
wrapping additions and subtractions wrap modulo `2 ^ w`. -/
theorem block_roundtrip (w r : Nat) (p : Nat × Nat) (t : List Nat)
    (hw : 0 < w) (h1 : p.1 < 2 ^ w) (h2 : p.2 < 2 ^ w) (_hr : 1 ≤ r)
    (_ht : t.length = 2 * r + 2) :
    decode_block w (encode_block w p t) t = p :=
  decode_block_encode_block w p t hw h1 h2

/-- Witness for `block_roundtrip` at `w = 32`, `r = 1`, a concrete table. -/
theorem block_roundtrip_witness :
    decode_block 32 (encode_block 32 (5, 7) (List.replicate 4 3)) (List.replicate 4 3)
      = (5, 7) :=
  block_roundtrip 32 1 (5, 7) (List.replicate 4 3) (by decide) (by decide) (by decide)
    (by decide) (by decide)

set_option maxRecDepth 100000 in
/-- C3: known-vector conformance of `encode`/`decode` at width 32 and 12
rounds: the key `00 01 … 0F` maps plaintext `00 11 22 33 44 55 66 77` to
ciphertext `2D DC 14 9B CF 08 8B 9E`; the 16-byte all-zero key maps the
all-zero block to `21 A5 DB EE 15 4B 8F 6D`; and `decode` of
`00 11 22 33 44 55 66 77` under the key `00 01 … 0F` yields
`96 95 0D DA 65 4A 3D 62`. -/
theorem known_vectors :
    encode 32 [0x00, 0x01, 0x02, 0x03, 0x04, 0x05, 0x06, 0x07,
               0x08, 0x09, 0x0A, 0x0B, 0x0C, 0x0D, 0x0E, 0x0F]
        [0x00, 0x11, 0x22, 0x33, 0x44, 0x55, 0x66, 0x77]
      = Except.ok [0x2D, 0xDC, 0x14, 0x9B, 0xCF, 0x08, 0x8B, 0x9E]
    ∧ encode 32 (List.replicate 16 0) (List.replicate 8 0)
      = Except.ok [0x21, 0xA5, 0xDB, 0xEE, 0x15, 0x4B, 0x8F, 0x6D]
    ∧ decode 32 [0x00, 0x01, 0x02, 0x03, 0x04, 0x05, 0x06, 0x07,
                 0x08, 0x09, 0x0A, 0x0B, 0x0C, 0x0D, 0x0E, 0x0F]
        [0x00, 0x11, 0x22, 0x33, 0x44, 0x55, 0x66, 0x77]
      = Except.ok [0x96, 0x95, 0x0D, 0xDA, 0x65, 0x4A, 0x3D, 0x62] :=
  ⟨by rfl, by rfl, by rfl⟩

/-! ### Byte codec facts -/

theorem toLe_length (u x : Nat) : (toLe u x).length = u := by
  induction u generalizing x with
  | zero => rfl
  | succ u ih => simp [toLe, ih]

theorem toLe_mem_lt (u x : Nat) : ∀ b ∈ toLe u x, b < 256 := by
  induction u generalizing x with
  | zero => intro b hb; cases hb
  | succ u ih =>
    intro b hb
    simp only [toLe, List.mem_cons] at hb
    rcases hb with rfl | hb
    · exact Nat.mod_lt _ (by norm_num)
    · exact ih (x / 256) b hb

theorem fromLe_cons (b : Nat) (bs : List Nat) :
    fromLe (b :: bs) = b + 256 * fromLe bs := rfl

theorem fromLe_toLe (u x : Nat) (hx : x < 256 ^ u) : fromLe (toLe u x) = x := by
  induction u generalizing x with
  | zero =>
    have : x = 0 := by simpa using hx
    simp [this, toLe, fromLe]
  | succ u ih =>
    have hdiv : x / 256 < 256 ^ u := by
      apply Nat.div_lt_of_lt_mul
      calc x < 256 ^ (u + 1) := hx
        _ = 256 * 256 ^ u := by rw [pow_succ, mul_comm]
    show fromLe (x % 256 :: toLe u (x / 256)) = x
    rw [fromLe_cons, ih (x / 256) hdiv, Nat.mod_add_div]

theorem toLe_fromLe (bs : List Nat) (h : ∀ b ∈ bs, b < 256) :
    toLe bs.length (fromLe bs) = bs := by
  induction bs with
  | nil => rfl
  | cons b bs ih =>
    have hb : b < 256 := h b (List.mem_cons_self b bs)
    show toLe (bs.length + 1) (fromLe (b :: bs)) = b :: bs
    rw [fromLe_cons]
    show (b + 256 * fromLe bs) % 256 :: toLe bs.length ((b + 256 * fromLe bs) / 256)
      = b :: bs
    have hmod : (b + 256 * fromLe bs) % 256 = b := by
      rw [Nat.add_mul_mod_self_left, Nat.mod_eq_of_lt hb]
    have hdiv : (b + 256 * fromLe bs) / 256 = fromLe bs := by
      rw [Nat.add_mul_div_left _ _ (by norm_num : (0:Nat) < 256),
        Nat.div_eq_of_lt hb, Nat.zero_add]
    rw [hmod, hdiv, ih (fun x hx => h x (List.mem_cons_of_mem _ hx))]

theorem fromLe_lt (bs : List Nat) (h : ∀ b ∈ bs, b < 256) :
    fromLe bs < 256 ^ bs.length := by
  induction bs with
  | nil => simp [fromLe]
  | cons b bs ih =>
    have hb : b < 256 := h b (List.mem_cons_self b bs)
    have hr : fromLe bs < 256 ^ bs.length := ih (fun x hx => h x (List.mem_cons_of_mem _ hx))
    show fromLe (b :: bs) < 256 ^ (bs.length + 1)
    rw [fromLe_cons]
    calc b + 256 * fromLe bs < 256 * (fromLe bs + 1) := by omega
      _ ≤ 256 * 256 ^ bs.length := Nat.mul_le_mul_left 256 (by omega)
      _ = 256 ^ (bs.length + 1) := by rw [pow_succ]; ring

/-- `256 ^ u` is `2 ^ (8·u)`: a word of `u` bytes has `8·u` bits. -/
theorem pow256_eq (u : Nat) : 256 ^ u = 2 ^ (8 * u) := by
  rw [pow_mul]
  norm_num

/-! ### Facts about the block loop of `compute` -/

theorem computeBlocks_length (bb : Nat) (kt : List Nat)
    (f : Nat × Nat → List Nat → Nat × Nat) (n : Nat) (input : List Nat) :
    (computeBlocks bb kt f n input).length = n * (2 * (bb / 2)) := by
  induction n generalizing input with
  | zero => simp [computeBlocks]
  | succ n ih =>
    simp only [computeBlocks, List.length_append, toLe_length, ih]
    ring

/-- Processing a block-aligned prefix then a suffix equals processing the
concatenation: the loop carries no state between chunks. -/
theorem computeBlocks_append (bb : Nat) (kt : List Nat)
    (f : Nat × Nat → List Nat → Nat × Nat) (n1 n2 : Nat) (p1 p2 : List Nat)
    (h1 : p1.length = bb * n1) :
    computeBlocks bb kt f (n1 + n2) (p1 ++ p2)
      = computeBlocks bb kt f n1 p1 ++ computeBlocks bb kt f n2 p2 := by
  induction n1 generalizing p1 with
  | zero =>
    have hp : p1 = [] := List.length_eq_zero.mp (by simpa using h1)
    subst hp
    simp [computeBlocks]
  | succ n1 ih =>
    have hble : bb ≤ p1.length := by
      rw [h1]
      calc bb = bb * 1 := (mul_one bb).symm
        _ ≤ bb * (n1 + 1) := Nat.mul_le_mul_left bb (by omega)
    have htk : (p1.take bb).length = bb := by
      simp [List.length_take]
      omega
    have hsplit : p1 ++ p2 = p1.take bb ++ (p1.drop bb ++ p2) := by
      rw [← List.append_assoc, List.take_append_drop]
    have htake : (p1 ++ p2).take bb = p1.take bb := by
      rw [hsplit]
      exact List.take_left' htk
    have hdrop : (p1 ++ p2).drop bb = p1.drop bb ++ p2 := by
      rw [hsplit]
      exact List.drop_left' htk
    have hmul : bb * (n1 + 1) = bb * n1 + bb := by ring
    have hlen2 : (p1.drop bb).length = bb * n1 := by
      simp [List.length_drop, h1]
      omega
    have hfuel : n1 + 1 + n2 = (n1 + n2) + 1 := by omega
    rw [hfuel]
    simp only [computeBlocks, htake, hdrop, ih (p1.drop bb) hlen2, List.append_assoc]

/-- If `g · kt` inverts `f · kt` on words of `u` bytes, then the block loop
with `g` inverts the block loop with `f` on aligned byte inputs. -/
theorem computeBlocks_inverse (u : Nat) (hu : 0 < u) (kt : List Nat)
    (f g : Nat × Nat → List Nat → Nat × Nat)
    (hfg : ∀ ab : Nat × Nat, ab.1 < 256 ^ u → ab.2 < 256 ^ u →
      (f ab kt).1 < 256 ^ u ∧ (f ab kt).2 < 256 ^ u ∧ g (f ab kt) kt = ab)
    (n : Nat) (input : List Nat) (hb : ∀ b ∈ input, b < 256)
    (hlen : input.length = 2 * u * n) :
    computeBlocks (2 * u) kt g n (computeBlocks (2 * u) kt f n input) = input := by
  have hu2 : 2 * u / 2 = u := by omega
  induction n generalizing input with
  | zero =>
    have hp : input = [] := List.length_eq_zero.mp (by simpa using hlen)
    subst hp
    rfl
  | succ n ih =>
    have hble : 2 * u ≤ input.length := by
      rw [hlen]
      calc 2 * u = 2 * u * 1 := (mul_one _).symm
        _ ≤ 2 * u * (n + 1) := Nat.mul_le_mul_left _ (by omega)
    have hclen : (input.take (2 * u)).length = 2 * u := by
      simp [List.length_take]
      omega
    have hc1len : ((input.take (2 * u)).take u).length = u := by
      simp [List.length_take]
      omega
    have hc2len : ((input.take (2 * u)).drop u).length = u := by
      simp [List.length_drop, hclen]
      omega
    have hc1mem : ∀ b ∈ (input.take (2 * u)).take u, b < 256 :=
      fun b h' => hb b (List.take_subset _ _ (List.take_subset _ _ h'))
    have hc2mem : ∀ b ∈ (input.take (2 * u)).drop u, b < 256 :=
      fun b h' => hb b (List.take_subset _ _ (List.drop_subset _ _ h'))
    have hi0 : fromLe ((input.take (2 * u)).take u) < 256 ^ u := by
      have h' := fromLe_lt _ hc1mem
      rwa [hc1len] at h'
    have hi1 : fromLe ((input.take (2 * u)).drop u) < 256 ^ u := by
      have h' := fromLe_lt _ hc2mem
      rwa [hc2len] at h'
    obtain ⟨hf1, hf2, hg⟩ :=
      hfg (fromLe ((input.take (2 * u)).take u), fromLe ((input.take (2 * u)).drop u)) hi0 hi1
    simp only [computeBlocks, hu2]
    set o := f (fromLe ((input.take (2 * u)).take u),
      fromLe ((input.take (2 * u)).drop u)) kt with ho
    have hAlen : (toLe u o.1).length = u := toLe_length u o.1
    have hABlen : (toLe u o.1 ++ toLe u o.2).length = 2 * u := by
      simp [List.length_append, toLe_length]
      omega
    have htakeD : (toLe u o.1 ++ toLe u o.2
          ++ computeBlocks (2 * u) kt f n (input.drop (2 * u))).take (2 * u)
        = toLe u o.1 ++ toLe u o.2 :=
      List.take_left' hABlen
    have hdropD : (toLe u o.1 ++ toLe u o.2
          ++ computeBlocks (2 * u) kt f n (input.drop (2 * u))).drop (2 * u)
        = computeBlocks (2 * u) kt f n (input.drop (2 * u)) :=
      List.drop_left' hABlen
    rw [htakeD, hdropD]
    have htkA : (toLe u o.1 ++ toLe u o.2).take u = toLe u o.1 :=
      List.take_left' hAlen
    have hdrA : (toLe u o.1 ++ toLe u o.2).drop u = toLe u o.2 :=
      List.drop_left' hAlen
    rw [htkA, hdrA, fromLe_toLe u o.1 hf1, fromLe_toLe u o.2 hf2]
    have hpair : ((o.1 : Nat), (o.2 : Nat)) = o := rfl
    rw [hpair, ho, hg]
    have htoLe1 : toLe u (fromLe ((input.take (2 * u)).take u))
        = (input.take (2 * u)).take u := by
      have h' := toLe_fromLe _ hc1mem
      rwa [hc1len] at h'
    have htoLe2 : toLe u (fromLe ((input.take (2 * u)).drop u))
        = (input.take (2 * u)).drop u := by
      have h' := toLe_fromLe _ hc2mem
      rwa [hc2len] at h'
    rw [htoLe1, htoLe2]
    have hlen2 : (input.drop (2 * u)).length = 2 * u * n := by
      have hmul : 2 * u * (n + 1) = 2 * u * n + 2 * u := by ring
      simp [List.length_drop, hlen]
      omega
    rw [ih (input.drop (2 * u)) (fun b h' => hb b (List.drop_subset _ _ h')) hlen2]
    rw [List.take_append_drop, List.take_append_drop]

/-! ### Key table shape -/

theorem mixStep_s_length (w t c : Nat) (st : MixState) :
    (mixStep w t c st).s.length = st.s.length := by
  simp [mixStep, List.length_set]

theorem iterate_mixStep_s_length (w t c k : Nat) (st : MixState) :
    ((mixStep w t c)^[k] st).s.length = st.s.length := by
  induction k generalizing st with
  | zero => rfl
  | succ k ih =>
    rw [Function.iterate_succ_apply, ih (mixStep w t c st), mixStep_s_length]

theorem genKeyTableCore_length (w : Nat) (key : List Nat) (rounds : Nat) :
    (genKeyTableCore w key rounds).length = 2 * rounds + 2 := by
  unfold genKeyTableCore
  rw [iterate_mixStep_s_length]
  simp

theorem encode_block_lt (w : Nat) (pt : Nat × Nat) (kt : List Nat) :
    (encode_block w pt kt).1 < 2 ^ w ∧ (encode_block w pt kt).2 < 2 ^ w := by
  unfold encode_block
  cases hkl : kt.length / 2 - 1 with
  | zero => exact ⟨wadd_lt w _ _, wadd_lt w _ _⟩
  | succ m => exact encRound_lt w kt (m + 1) _

/-- C6: `gen_key_table` fails with `InvalidKeyLength` exactly when the key
is longer than 255 bytes; any accepted key — the empty key in particular —
yields a table of `2·rounds + 2` words. -/
theorem gen_key_table_invalid_iff (w : Nat) (key : List Nat) (rounds : Nat) :
    (gen_key_table w key rounds = .error .invalidKeyLength ↔ 255 < key.length)
    ∧ (key.length ≤ 255 →
      ∃ s, gen_key_table w key rounds = .ok s ∧ s.length = 2 * rounds + 2) := by
  constructor
  · constructor
    · intro h
      by_contra hlen
      push_neg at hlen
      simp [gen_key_table, hlen] at h
    · intro h
      simp [gen_key_table, Nat.not_le.mpr h]
  · intro h
    exact ⟨genKeyTableCore w key rounds, by simp [gen_key_table, h],
      genKeyTableCore_length w key rounds⟩

/-- Witness for `gen_key_table_invalid_iff`: the empty key at width 32 and
12 rounds is accepted and gives a 26-word table. -/
theorem gen_key_table_invalid_iff_witness :
    ∃ s, gen_key_table 32 [] 12 = .ok s ∧ s.length = 2 * 12 + 2 :=
  (gen_key_table_invalid_iff 32 [] 12).2 (by decide)

/-! ### The `compute` wrapper -/

theorem compute_ok (w : Nat) (input kt : List Nat)
    (f : Nat × Nat → List Nat → Nat × Nat) (hlen : input.length % (w / 4) = 0) :
    compute w input kt f
      = .ok (computeBlocks (w / 4) kt f (input.length / (w / 4)) input) := by
  simp [compute, hlen]

theorem compute_err (w : Nat) (input kt : List Nat)
    (f : Nat × Nat → List Nat → Nat × Nat) (hlen : input.length % (w / 4) ≠ 0) :
    compute w input kt f = .error .invalidInputLength := by
  simp [compute, hlen]

/-- For aligned input the block loop's output has the input's length. -/
theorem computeBlocks_length_aligned (w : Nat) (kt input : List Nat)
    (f : Nat × Nat → List Nat → Nat × Nat) (hw8 : w % 8 = 0)
    (hlen : input.length % (w / 4) = 0) :
    (computeBlocks (w / 4) kt f (input.length / (w / 4)) input).length
      = input.length := by
  rw [computeBlocks_length]
  have h1 : w / 4 / 2 = w / 8 := by omega
  have h2 : 2 * (w / 8) = w / 4 := by omega
  rw [h1, h2]
  exact Nat.div_mul_cancel (Nat.dvd_of_mod_eq_zero hlen)

/-! ### Top-level byte interface -/

/-- C2: for every width that is a positive multiple of 8 (so in particular
16, 32 and 64), every round count `r ≥ 1`, every key of at most 255 bytes
and every block-aligned byte plaintext, decoding the encoding returns the
plaintext at the byte interface.  `encodeWith`/`decodeWith` are the source's
`encode`/`decode` with the round count as the explicit parameter the claim
quantifies over; the source's functions are these at `rounds = 12`. -/
theorem encode_decode_roundtrip (w r : Nat) (key pt : List Nat)
    (hw8 : w % 8 = 0) (hw0 : 0 < w) (_hr : 1 ≤ r) (hk : key.length ≤ 255)
    (hb : ∀ b ∈ pt, b < 256) (hlen : pt.length % (2 * (w / 8)) = 0) :
    (encodeWith w key r pt).bind (decodeWith w key r) = Except.ok pt := by
  have hbb : w / 4 = 2 * (w / 8) := by omega
  have hu0 : 0 < w / 8 := by omega
  have h256 : 256 ^ (w / 8) = 2 ^ w := by
    rw [pow256_eq]
    congr 1
    omega
  have hkt : gen_key_table w key r = .ok (genKeyTableCore w key r) := by
    simp [gen_key_table, hk]
  have hlen4 : pt.length % (w / 4) = 0 := by rw [hbb]; exact hlen
  unfold encodeWith decodeWith
  rw [hkt]
  simp only [Except.bind]
  rw [compute_ok w pt _ _ hlen4]
  simp only [Except.bind]
  have hout : (computeBlocks (w / 4) (genKeyTableCore w key r) (encode_block w)
      (pt.length / (w / 4)) pt).length = pt.length :=
    computeBlocks_length_aligned w _ pt _ hw8 hlen4
  rw [compute_ok w _ _ _ (by rw [hout]; exact hlen4), hout]
  congr 1
  have hfg : ∀ ab : Nat × Nat, ab.1 < 256 ^ (w / 8) → ab.2 < 256 ^ (w / 8) →
      (encode_block w ab (genKeyTableCore w key r)).1 < 256 ^ (w / 8)
      ∧ (encode_block w ab (genKeyTableCore w key r)).2 < 256 ^ (w / 8)
      ∧ decode_block w (encode_block w ab (genKeyTableCore w key r))
          (genKeyTableCore w key r) = ab := by
    intro ab h1 h2
    rw [h256] at h1 h2
    refine ⟨?_, ?_, ?_⟩
    · rw [h256]
      exact (encode_block_lt w ab _).1
    · rw [h256]
      exact (encode_block_lt w ab _).2
    · exact decode_block_encode_block w ab _ hw0 h1 h2
  have hlenmul : pt.length = 2 * (w / 8) * (pt.length / (2 * (w / 8))) :=
    (Nat.mul_div_cancel' (Nat.dvd_of_mod_eq_zero hlen)).symm
  rw [hbb]
  exact computeBlocks_inverse (w / 8) hu0 (genKeyTableCore w key r) _ _ hfg
    (pt.length / (2 * (w / 8))) pt hb hlenmul

/-- Witness for `encode_decode_roundtrip`: width 32, 12 rounds, a one-byte
key and the all-zero 8-byte block. -/
theorem encode_decode_roundtrip_witness :
    (encodeWith 32 [1] 12 (List.replicate 8 0)).bind (decodeWith 32 [1] 12)
      = Except.ok (List.replicate 8 0) :=
  encode_decode_roundtrip 32 12 [1] (List.replicate 8 0) (by decide) (by decide)
    (by decide) (by decide) (by decide) (by decide)

/-- C10: on a key of at most 255 bytes and a block-aligned input, `encode`
and `decode` succeed and return exactly as many bytes as they were given. -/
theorem encode_decode_length (w : Nat) (key input : List Nat)
    (hw8 : w % 8 = 0) (_hw0 : 0 < w) (hk : key.length ≤ 255)
    (hlen : input.length % (2 * (w / 8)) = 0) :
    (∃ ct, encode w key input = .ok ct ∧ ct.length = input.length)
    ∧ (∃ p, decode w key input = .ok p ∧ p.length = input.length) := by
  have hbb : w / 4 = 2 * (w / 8) := by omega
  have hlen4 : input.length % (w / 4) = 0 := by rw [hbb]; exact hlen
  have hkt : gen_key_table w key 12 = .ok (genKeyTableCore w key 12) := by
    simp [gen_key_table, hk]
  constructor
  · refine ⟨computeBlocks (w / 4) (genKeyTableCore w key 12) (encode_block w)
      (input.length / (w / 4)) input, ?_, ?_⟩
    · unfold encode encodeWith
      rw [hkt]
      simp only [Except.bind]
      exact compute_ok w input _ _ hlen4
    · exact computeBlocks_length_aligned w _ input _ hw8 hlen4
  · refine ⟨computeBlocks (w / 4) (genKeyTableCore w key 12) (decode_block w)
      (input.length / (w / 4)) input, ?_, ?_⟩
    · unfold decode decodeWith
      rw [hkt]
      simp only [Except.bind]
      exact compute_ok w input _ _ hlen4
    · exact computeBlocks_length_aligned w _ input _ hw8 hlen4

/-- Witness for `encode_decode_length` at width 32 with a 16-byte input. -/
theorem encode_decode_length_witness :
    (∃ ct, encode 32 [7] (List.replicate 16 1) = .ok ct
      ∧ ct.length = (List.replicate (α := Nat) 16 1).length)
    ∧ (∃ p, decode 32 [7] (List.replicate 16 1) = .ok p
      ∧ p.length = (List.replicate (α := Nat) 16 1).length) :=
  encode_decode_length 32 [7] (List.replicate 16 1) (by decide) (by decide)
    (by decide) (by decide)

/-- C8: encoding distributes over concatenation of block-aligned messages:
blocks are transformed independently, with no chaining state. -/
theorem encode_append (w : Nat) (key p1 p2 : List Nat)
    (hw8 : w % 8 = 0) (_hw0 : 0 < w) (hk : key.length ≤ 255)
    (h1 : p1.length % (2 * (w / 8)) = 0) (h2 : p2.length % (2 * (w / 8)) = 0) :
    ∃ c1 c2, encode w key p1 = .ok c1 ∧ encode w key p2 = .ok c2
      ∧ encode w key (p1 ++ p2) = .ok (c1 ++ c2) := by
  have hbb : w / 4 = 2 * (w / 8) := by omega
  have h14 : p1.length % (w / 4) = 0 := by rw [hbb]; exact h1
  have h24 : p2.length % (w / 4) = 0 := by rw [hbb]; exact h2
  have h124 : (p1 ++ p2).length % (w / 4) = 0 := by
    rw [List.length_append, Nat.add_mod, h14, h24]
    simp
  have hkt : gen_key_table w key 12 = .ok (genKeyTableCore w key 12) := by
    simp [gen_key_table, hk]
  refine ⟨computeBlocks (w / 4) (genKeyTableCore w key 12) (encode_block w)
      (p1.length / (w / 4)) p1,
    computeBlocks (w / 4) (genKeyTableCore w key 12) (encode_block w)
      (p2.length / (w / 4)) p2, ?_, ?_, ?_⟩
  · unfold encode encodeWith
    rw [hkt]
    simp only [Except.bind]
    exact compute_ok w p1 _ _ h14
  · unfold encode encodeWith
    rw [hkt]
    simp only [Except.bind]
    exact compute_ok w p2 _ _ h24
  · unfold encode encodeWith
    rw [hkt]
    simp only [Except.bind]
    rw [compute_ok w (p1 ++ p2) _ _ h124]
    congr 1
    have hn : (p1 ++ p2).length / (w / 4)
        = p1.length / (w / 4) + p2.length / (w / 4) := by
      rw [List.length_append]
      exact Nat.add_div_of_dvd_right (Nat.dvd_of_mod_eq_zero h14)
    rw [hn]
    exact computeBlocks_append (w / 4) _ _ _ _ p1 p2
      (Nat.mul_div_cancel' (Nat.dvd_of_mod_eq_zero h14)).symm

/-- Witness for `encode_append` at width 32 with two 8-byte messages. -/
theorem encode_append_witness :
    ∃ c1 c2, encode 32 [9] (List.replicate 8 2) = .ok c1
      ∧ encode 32 [9] (List.replicate 8 3) = .ok c2
      ∧ encode 32 [9] (List.replicate 8 2 ++ List.replicate 8 3) = .ok (c1 ++ c2) :=
  encode_append 32 [9] (List.replicate 8 2) (List.replicate 8 3) (by decide)
    (by decide) (by decide) (by decide) (by decide)

/-- C7 amended: for a key the schedule accepts (at most 255 bytes), `encode`
and `decode` fail with `InvalidInputLength` exactly when the input length is
not a multiple of the `2·u`-byte block size; no padding is applied. -/
theorem invalid_input_iff (w : Nat) (key input : List Nat)
    (hw8 : w % 8 = 0) (_hw0 : 0 < w) (hk : key.length ≤ 255) :
    (encode w key input = .error .invalidInputLength
      ↔ input.length % (2 * (w / 8)) ≠ 0)
    ∧ (decode w key input = .error .invalidInputLength
      ↔ input.length % (2 * (w / 8)) ≠ 0) := by
  have hbb : 2 * (w / 8) = w / 4 := by omega
  have hkt : gen_key_table w key 12 = .ok (genKeyTableCore w key 12) := by
    simp [gen_key_table, hk]
  rw [hbb]
  constructor
  · constructor
    · intro h hal
      unfold encode encodeWith at h
      rw [hkt] at h
      simp only [Except.bind] at h
      rw [compute_ok w input _ _ hal] at h
      exact Except.noConfusion h
    · intro h
      unfold encode encodeWith
      rw [hkt]
      simp only [Except.bind]
      exact compute_err w input _ _ h
  · constructor
    · intro h hal
      unfold decode decodeWith at h
      rw [hkt] at h
      simp only [Except.bind] at h
      rw [compute_ok w input _ _ hal] at h
      exact Except.noConfusion h
    · intro h
      unfold decode decodeWith
      rw [hkt]
      simp only [Except.bind]
      exact compute_err w input _ _ h

/-- Witness for `invalid_input_iff` at width 32 with a 3-byte input. -/
theorem invalid_input_iff_witness :
    encode 32 [4] [1, 2, 3] = .error .invalidInputLength
    ∧ decode 32 [4] [1, 2, 3] = .error .invalidInputLength :=
  ⟨((invalid_input_iff 32 [4] [1, 2, 3] (by decide) (by decide) (by decide)).1).mpr
      (by decide),
    ((invalid_input_iff 32 [4] [1, 2, 3] (by decide) (by decide) (by decide)).2).mpr
      (by decide)⟩

set_option maxRecDepth 10000 in
/-- C7 counterexample: with a 256-byte key and a misaligned input, `encode`
fails with `InvalidKeyLength`, not `InvalidInputLength` — the key check runs
first — so the unconditional "misaligned iff fails with InvalidInputLength"
reading is false. -/
theorem invalid_input_unconditional_false :
    [0].length % (2 * (32 / 8)) ≠ 0
    ∧ encode 32 (List.replicate 256 0) [0] ≠ Except.error Rc5Error.invalidInputLength := by
  refine ⟨by decide, ?_⟩
  intro hbad
  have h : encode 32 (List.replicate 256 0) [0]
      = Except.error Rc5Error.invalidKeyLength := by
    simp [encode, encodeWith, gen_key_table, Except.bind]
  rw [h] at hbad
  injection hbad with h2
  cases h2

/-! ### Refinement of the spec's algorithm descriptions -/

/-- C5: with a table of length `2·rounds + 2`, `encode_block` computes
exactly the spec's algorithm — initial additions of `table[0]`, `table[1]`,
then `rounds` rounds of the half-round formulas, using the already-updated
`A` inside each round. -/
theorem encode_block_follows_spec (w rounds : Nat) (pt : Nat × Nat) (table : List Nat)
    (ht : table.length = 2 * rounds + 2) :
    encode_block w pt table = specEncodeBlock w rounds pt table := by
  have hr : table.length / 2 - 1 = rounds := by
    rw [ht]
    omega
  have haux : ∀ n ab, specEncRounds w table n ab = encRounds w table n ab := by
    intro n
    induction n with
    | zero => intro ab; rfl
    | succ n ih =>
      intro ab
      show specEncRound w table (n + 1) (specEncRounds w table n ab)
        = encRound w table (n + 1) (encRounds w table n ab)
      rw [ih]
      rfl
  unfold encode_block specEncodeBlock
  rw [hr, haux]
  rfl

/-- Witness for `encode_block_follows_spec`: width 32, one round. -/
theorem encode_block_follows_spec_witness :
    encode_block 32 (1, 2) (List.replicate 4 1)
      = specEncodeBlock 32 1 (1, 2) (List.replicate 4 1) :=
  encode_block_follows_spec 32 1 (1, 2) (List.replicate 4 1) (by decide)

/-- C4: for the supported widths, `gen_key_table` on an accepted key computes
exactly the spec's KeySchedule algorithm: the last-to-first byte packing into
`c = max(1, ⌈len·8/w⌉)` L-words, the `P`/`Q` seeding of `S`, and `3·max(t,c)`
mixing iterations with `i` advancing mod `t` and `j` mod `c`, `S` rotated by
the fixed amount 3 and `L` by the data-dependent `(a+b) mod w`. -/
theorem gen_key_table_follows_spec (w : Nat) (key : List Nat) (rounds : Nat)
    (hw : w = 16 ∨ w = 32 ∨ w = 64) (hk : key.length ≤ 255) :
    gen_key_table w key rounds = Except.ok (specKeySchedule w key rounds) := by
  have hw3 : 3 < w := by rcases hw with rfl | rfl | rfl <;> decide
  have hdvd : w ∣ 2 ^ w := by rcases hw with rfl | rfl | rfl <;> decide
  have hpack : specPackStep w (w / 8) key = packStep w (w / 8) key := by
    funext i l
    unfold specPackStep packStep wadd
    rw [Nat.mod_add_mod]
  have hpackL : ∀ n l, specPackL w (w / 8) key n l = packL w (w / 8) key n l := by
    intro n
    induction n with
    | zero => intro l; rfl
    | succ n ih =>
      intro l
      show specPackL w (w / 8) key n (specPackStep w (w / 8) key n l)
        = packL w (w / 8) key n (packStep w (w / 8) key n l)
      rw [hpack, ih]
  have hmix : ∀ t c, specMixStep w t c = mixStep w t c := by
    intro t c
    funext st
    have h3 : 3 % w = 3 := Nat.mod_eq_of_lt hw3
    have hmodw : ∀ x : Nat, x % 2 ^ w % w = x % w := fun x => Nat.mod_mod_of_dvd x hdvd
    unfold specMixStep mixStep wadd
    simp only [Nat.mod_add_mod, h3, hmodw]
  unfold gen_key_table
  rw [if_pos hk]
  congr 1
  unfold genKeyTableCore specKeySchedule
  simp only [hmix, hpackL]

/-- Witness for `gen_key_table_follows_spec`: width 32, a one-byte key. -/
theorem gen_key_table_follows_spec_witness :
    gen_key_table 32 [1] 1 = Except.ok (specKeySchedule 32 [1] 1) :=
  gen_key_table_follows_spec 32 [1] 1 (by decide) (by decide)

end RC5
